import Mathlib

/-!
Verification of the pypicloud access-control core (`pypicloud/access/base.py`).

The Python source is shallowly embedded as follows:

* Python `dict`s are insertion-ordered association lists (`dget` / `dset`).
* The abstract storage primitives of `IAccessBackend` (`user_permissions`,
  `group_permissions`, `is_admin`, `groups`, `_get_password_hash`,
  `user_data`) are fields of a `Backend` structure, so theorems quantify
  over every concrete backend implementing the contract.
* The request collaborator is represented by the `userid` and `principals`
  fields; the passlib context's `verify` by the `pwdVerify` field.
* The token service works over `List Char` (Python `str`), with Python
  exceptions made explicit in an `Except PyErr` result; `hmac.new(key, msg,
  sha256).hexdigest()` is an abstract field `hmacHex` of `TokenConfig`,
  and wall-clock time is an explicit integer-seconds parameter.
* The mutable-store operations used by `IMutableAccessBackend.load` are
  not part of `base.py` (concrete backends implement them); they are
  modelled from the spec's AccessStore contract on an explicit `Store`
  state (see the `Modelled from the spec:` doc comments).
-/

namespace Pypicloud

/-- Python dict lookup on an insertion-ordered association list
(model of `d[k]` / `d.get(k)` returning `None` when absent). -/
def dget {α : Type} : List (String × α) → String → Option α
  | [], _ => none
  | (k, v) :: d, q => if q = k then some v else dget d q

/-- Python dict assignment `d[k] = v`: replace in place when the key is
already present, otherwise append at the end (insertion order). -/
def dset {α : Type} : List (String × α) → String → α → List (String × α)
  | [], k, v => [(k, v)]
  | (k0, v0) :: d, k, v => if k0 = k then (k, v) :: d else (k0, v0) :: dset d k v

/-- `pyramid.security.Everyone` -/
def Everyone : String := "system.Everyone"

/-- `pyramid.security.Authenticated` -/
def Authenticated : String := "system.Authenticated"

/-- Python `s.startswith(pre)` as a character-list prefix test. -/
def strStartsWith (s pre : String) : Bool :=
  pre.data.isPrefixOf s.data

/-- `group_to_principal` from base.py. -/
def group_to_principal (group : String) : String :=
  if group = Everyone ∨ group = Authenticated ∨ strStartsWith group "group:" then group
  else if group = "everyone" then Everyone
  else if group = "authenticated" then Authenticated
  else "group:" ++ group

/-- `groups_to_principals` from base.py. -/
def groups_to_principals (groups : List String) : List String :=
  groups.map group_to_principal

/-- The read side of an access backend: configuration (`default_read`,
`default_write`), the request collaborator (`userid`,
`effective_principals`), the passlib verify function, and the abstract
storage primitives of `IAccessBackend` that every concrete backend
implements (`password_hash` stands for `_get_password_hash`; `user_data u`
is `None` exactly when the backend reports no non-pending user `u`, and
its payload is irrelevant to the methods modelled here). -/
structure Backend where
  mutable : Bool
  userid : Option String
  principals : List String
  default_read : List String
  default_write : List String
  pwdVerify : String → String → Bool
  user_permissions : String → List (String × List String)
  group_permissions : String → List (String × List String)
  is_admin : String → Bool
  groups : String → List String
  password_hash : String → Option String
  user_data : String → Option Unit

/-- `IAccessBackend.allowed_permissions`. -/
def allowed_permissions (b : Backend) (package : String) : List (String × List String) :=
  let all1 := (b.user_permissions package).foldl
    (fun d uv => dset d ("user:" ++ uv.1) uv.2) []
  let all2 := (b.group_permissions package).foldl
    (fun d gv => dset d (group_to_principal gv.1) gv.2) all1
  if all2 = [] then
    let d3 := (groups_to_principals b.default_read).foldl
      (fun d principal => dset d principal ["read"]) all2
    (groups_to_principals b.default_write).foldl
      (fun d principal =>
        match dget d principal with
        | some ps => dset d principal (ps ++ ["write"])
        | none => dset d principal ["write"]) d3
  else all2

/-- `pyramid.security.Allow` / `Deny` markers of an ACL entry. -/
inductive AclKind
  | allow
  | deny
deriving DecidableEq

/-- `IAccessBackend.get_acl`: the two nested `for` loops appending one
`(Allow, principal, perm)` entry per permission, in dict iteration order. -/
def get_acl (b : Backend) (package : String) : List (AclKind × String × String) :=
  (allowed_permissions b package).foldl
    (fun acl pp => acl ++ pp.2.map (fun perm => (AclKind.allow, pp.1, perm))) []

/-- `IAccessBackend.has_permission`: the early `return True` for an admin
requester and the principal loop are written as `||` / `any`. -/
def has_permission (b : Backend) (package perm : String) : Bool :=
  (match b.userid with
   | some u => b.is_admin u
   | none => false) ||
  b.principals.any (fun principal =>
    decide (perm ∈ (dget (allowed_permissions b package) principal).getD []))

/-- `IAccessBackend.in_group`; `username = none` is the anonymous user. -/
def in_group (b : Backend) (username : Option String) (group : String) : Bool :=
  if group = "everyone" ∨ group = Everyone then true
  else
    match username with
    | none => false
    | some u =>
      if group = "authenticated" ∨ group = Authenticated then true
      else if group = "admin" && b.is_admin u then true
      else decide (group ∈ b.groups u)

/-- `IAccessBackend.verify_user`.  Python truthiness of the stored hash
(`bool(stored_pw and ...)`) makes both an absent (`None`) and an empty
(`""`) stored hash short-circuit to `False` before `pwd_context.verify`
is reached. -/
def verify_user (b : Backend) (username password : String) : Bool :=
  let stored_pw := b.password_hash username
  if b.mutable && (b.user_data username).isNone then false
  else
    match stored_pw with
    | none => false
    | some h => if h = "" then false else b.pwdVerify password h

/-! ## Token service (`IMutableAccessBackend.get_signup_token` /
`validate_signup_token`), over `List Char` strings with explicit
Python exceptions. -/

/-- The Python exceptions that the token code can raise. -/
inductive PyErr
  | indexError
  | valueError
  | runtimeError
deriving DecidableEq

/-- Fuel-driven decimal rendering (digits accumulated from the right). -/
def natToCharsCore : Nat → Nat → List Char → List Char
  | 0, _, acc => acc
  | fuel + 1, n, acc =>
    let d := Nat.digitChar (n % 10)
    if n / 10 = 0 then d :: acc
    else natToCharsCore fuel (n / 10) (d :: acc)

/-- Decimal rendering of a natural number, Python `"%d" % n` for `n ≥ 0`. -/
def natToChars (n : Nat) : List Char := natToCharsCore (n + 1) n []

/-- Fuel-free form of the decimal rendering, used in proofs. -/
def natDigits (n : Nat) : List Char :=
  if n < 10 then [Nat.digitChar n]
  else natDigits (n / 10) ++ [Nat.digitChar (n % 10)]
termination_by n
decreasing_by exact Nat.div_lt_self (by omega) (by omega)

/-- Model of Python `int(s)` on an unsigned decimal string: `some` of the
value on a non-empty all-digits string, `none` (→ `ValueError`) otherwise. -/
def parseDigits (s : List Char) : Option Nat :=
  if s ≠ [] ∧ s.all (fun c => c.isDigit) then
    some (s.foldl (fun a c => 10 * a + (c.toNat - 48)) 0)
  else none

/-- Model of Python `int(s)` including a leading minus sign. -/
def parsePyInt (s : List Char) : Option Int :=
  match s with
  | '-' :: rest => (parseDigits rest).map (fun n => -(n : Int))
  | _ => (parseDigits s).map (fun n => (n : Int))

/-- Python `"%d" % i` on an int. -/
def intToChars (i : Int) : List Char :=
  if i < 0 then '-' :: natToChars (-i).toNat else natToChars i.toNat

/-- Python `token.split(":")`.  The result is never empty, so prepending
a non-colon character extends its first piece (`headD`/`tail` reach the
first piece directly). -/
def splitCol : List Char → List (List Char)
  | [] => [[]]
  | c :: rest =>
    let r := splitCol rest
    if c = ':' then [] :: r else (c :: r.headD []) :: r.tail

/-- Configuration of the token service: the optional `auth.signing_key`,
the `auth.token_expire` window in seconds, and the external
`hmac.new(key, msg, hashlib.sha256).hexdigest()` collaborator as an
abstract function of the key and the message. -/
structure TokenConfig where
  signing_key : Option (List Char)
  token_expiration : Nat
  hmacHex : List Char → List Char → List Char

/-- `IMutableAccessBackend._hmac` followed by the concatenation in
`get_signup_token`; `now` is `time.time()` at integer seconds precision,
and a missing signing key raises `RuntimeError`. -/
def get_signup_token (c : TokenConfig) (username : List Char) (now : Nat) :
    Except PyErr (List Char) :=
  match c.signing_key with
  | none => Except.error PyErr.runtimeError
  | some key =>
    let msg := username ++ ':' :: natToChars now
    Except.ok (msg ++ ':' :: c.hmacHex key msg)

/-- `IMutableAccessBackend.validate_signup_token`: split on `':'`, pop the
last piece as the signature, read `pieces[0]` and `int(pieces[1])` (both
can raise), reject when expired, then compare the recomputed HMAC of
`"%s:%d" % (username, issued)` with the popped signature. -/
def validate_signup_token (c : TokenConfig) (token : List Char) (now : Nat) :
    Except PyErr (Option (List Char)) :=
  match c.signing_key with
  | none => Except.ok none
  | some key =>
    let pieces := splitCol token
    let signature := pieces.getLast?.getD []
    match pieces.dropLast with
    | [] => Except.error PyErr.indexError
    | username :: rest =>
      match rest with
      | [] => Except.error PyErr.indexError
      | tsPiece :: _ =>
        match parsePyInt tsPiece with
        | none => Except.error PyErr.valueError
        | some issued =>
          if issued + (c.token_expiration : Int) < (now : Int) then Except.ok none
          else
            let msg := username ++ ':' :: intToChars issued
            let expected := c.hmacHex key msg
            if signature = expected then Except.ok (some username) else Except.ok none

/-! ## Mutable store state and `IMutableAccessBackend.load`.

`load` in base.py orchestrates the AccessStore mutation primitives
(`_register`, `approve_user`, `set_user_admin`, `create_group`,
`edit_user_group`, `edit_group_permission`, `edit_user_permission`,
`set_allow_register`) that concrete backends implement; their semantics
is modelled from the spec's AccessStore contract (idempotent adds, no
removals). -/

/-- A stored user: password hash, admin flag, and an explicit
Pending/Approved status (`pending = true` means Pending). -/
structure UserRec where
  password : String
  admin : Bool
  pending : Bool
deriving DecidableEq

/-- The full mutable access-control state. -/
@[ext]
structure Store where
  users : String → Option UserRec
  groups : String → Option (List String)
  userPerms : String → String → List String
  groupPerms : String → String → List String
  allowRegister : Bool

/-- `user_data(username)` on the users field: Modelled from the spec:
pending users are excluded from `user_data`. -/
def userDataU (U : String → Option UserRec) (u : String) : Option UserRec :=
  match U u with
  | some r => if r.pending then none else some r
  | none => none

/-- Membership of `u` in `set(pending_users())`. -/
def pendingB (U : String → Option UserRec) (u : String) : Bool :=
  match U u with
  | some r => r.pending
  | none => false

/-- Modelled from the spec: `_register` stores a user with the supplied
pre-hashed password, in Pending status and without the admin flag. -/
def uRegister (U : String → Option UserRec) (u p : String) : String → Option UserRec :=
  fun v => if v = u then some ⟨p, false, true⟩ else U v

/-- Modelled from the spec: `approve_user` clears the Pending status
(one-way, idempotent, no effect on an unknown user). -/
def uApprove (U : String → Option UserRec) (u : String) : String → Option UserRec :=
  fun v => if v = u then (U v).map (fun r => { r with pending := false }) else U v

/-- Modelled from the spec: `set_user_admin` overwrites the admin flag
(no effect on an unknown user). -/
def uSetAdmin (U : String → Option UserRec) (u : String) (b : Bool) :
    String → Option UserRec :=
  fun v => if v = u then (U v).map (fun r => { r with admin := b }) else U v

/-- The `user_exists` helper closure inside `load`: the pending set is
captured once, `user_data` is consulted live. -/
def uExists (pend : String → Bool) (U : String → Option UserRec) (u : String) : Bool :=
  pend u || (userDataU U u).isSome

/-- Modelled from the spec: `group_members` of an absent group is `[]`. -/
def gMembers (G : String → Option (List String)) (g : String) : List String :=
  (G g).getD []

/-- Modelled from the spec: `create_group` creates an empty group when it
is absent and is a no-op on an existing group. -/
def gCreate (G : String → Option (List String)) (g : String) :
    String → Option (List String) :=
  if (G g).isSome then G else fun h => if h = g then some [] else G h

/-- Modelled from the spec: `edit_user_group(u, g, add=True)` adds the
member when it is not already present (idempotent). -/
def gAdd (G : String → Option (List String)) (u g : String) :
    String → Option (List String) :=
  let cur := gMembers G g
  if u ∈ cur then G else fun h => if h = g then some (cur ++ [u]) else G h

/-- Modelled from the spec: `edit_user_permission` /
`edit_group_permission` with `add=True` add the permission when missing
(idempotent); `P` is the package → key → permissions map. -/
def pAdd (P : String → String → List String) (package k perm : String) :
    String → String → List String :=
  let cur := P package k
  if perm ∈ cur then P
  else fun pk h => if pk = package ∧ h = k then cur ++ [perm] else P pk h

/-- Store-level `_register`. -/
def Store.registerU (s : Store) (u p : String) : Store :=
  { s with users := uRegister s.users u p }

/-- Store-level `approve_user`. -/
def Store.approve_user (s : Store) (u : String) : Store :=
  { s with users := uApprove s.users u }

/-- Store-level `set_user_admin`. -/
def Store.set_user_admin (s : Store) (u : String) (b : Bool) : Store :=
  { s with users := uSetAdmin s.users u b }

/-- Store-level `group_members`. -/
def Store.group_members (s : Store) (g : String) : List String :=
  gMembers s.groups g

/-- Store-level `create_group`. -/
def Store.create_group (s : Store) (g : String) : Store :=
  { s with groups := gCreate s.groups g }

/-- Store-level `edit_user_group` with `add=True`. -/
def Store.edit_user_group (s : Store) (u g : String) : Store :=
  { s with groups := gAdd s.groups u g }

/-- Store-level `edit_group_permission` with `add=True`. -/
def Store.edit_group_permission (s : Store) (package g perm : String) : Store :=
  { s with groupPerms := pAdd s.groupPerms package g perm }

/-- Store-level `edit_user_permission` with `add=True`. -/
def Store.edit_user_permission (s : Store) (package u perm : String) : Store :=
  { s with userPerms := pAdd s.userPerms package u perm }

/-- Store-level `set_allow_register`. -/
def Store.set_allow_register (s : Store) (b : Bool) : Store :=
  { s with allowRegister := b }

/-- One entry of the snapshot's `users` list (`admin` already carries the
`user.get("admin", False)` default). -/
structure SnapUser where
  username : String
  password : String
  admin : Bool

/-- The dump/load transfer format: Python dicts become association lists
(`groups`, and the nested per-package permission maps), Python lists stay
lists.  `pending_users` models `data.get("pending_users", [])`. -/
structure Snapshot where
  users : List SnapUser
  groups : List (String × List String)
  pending_users : List (String × String)
  packageGroups : List (String × List (String × List String))
  packageUsers : List (String × List (String × List String))
  allow_register : Bool

/-- `IMutableAccessBackend.load`, step for one declared user: register
and immediately approve when absent, then overwrite the admin flag. -/
def loadUserStep (pend : String → Bool) (st : Store) (x : SnapUser) : Store :=
  let st1 := if uExists pend st.users x.username then st
    else (st.registerU x.username x.password).approve_user x.username
  st1.set_user_admin x.username x.admin

/-- `IMutableAccessBackend.load`, step for one declared group: create it
when its member list is empty, then add the declared members that are
not current members (`set(members) - set(current_members)`; iterating
the list with the idempotent add reaches the same state as iterating
the Python set). -/
def loadGroupStep (st : Store) (gm : String × List String) : Store :=
  let st1 := if st.group_members gm.1 = [] then st.create_group gm.1 else st
  let cur := st1.group_members gm.1
  (gm.2.filter (fun m => m ∉ cur)).foldl (fun st2 m => st2.edit_user_group m gm.1) st1

/-- `IMutableAccessBackend.load`, step for one declared pending user:
register (without approving) when absent. -/
def loadPendingStep (pend : String → Bool) (st : Store) (x : String × String) : Store :=
  if uExists pend st.users x.1 then st else st.registerU x.1 x.2

/-- `IMutableAccessBackend.load`, step for one package of the snapshot's
group-permission map: grant each declared group permission. -/
def loadPkgGroupStep (st : Store) (pg : String × List (String × List String)) : Store :=
  pg.2.foldl (fun st1 gp =>
    gp.2.foldl (fun st2 perm => st2.edit_group_permission pg.1 gp.1 perm) st1) st

/-- `IMutableAccessBackend.load`, step for one package of the snapshot's
user-permission map: grant each declared user permission. -/
def loadPkgUserStep (st : Store) (pu : String × List (String × List String)) : Store :=
  pu.2.foldl (fun st1 up =>
    up.2.foldl (fun st2 perm => st2.edit_user_permission pu.1 up.1 perm) st1) st

/-- `IMutableAccessBackend.load`: the five passes in source order
followed by `set_allow_register`; the pending set is captured once from
the initial state. -/
def load (s : Store) (d : Snapshot) : Store :=
  let pend := pendingB s.users
  let s1 := d.users.foldl (loadUserStep pend) s
  let s2 := d.groups.foldl loadGroupStep s1
  let s3 := d.pending_users.foldl (loadPendingStep pend) s2
  let s4 := d.packageGroups.foldl loadPkgGroupStep s3
  let s5 := d.packageUsers.foldl loadPkgUserStep s4
  s5.set_allow_register d.allow_register

/-! ### Field-level forms of the `load` passes.

Each pass of `load` only touches one `Store` field; these functions are
the same folds written on that field alone, used to decompose `load`. -/

/-- The `users`-field action of one declared user. -/
def usersStep1Iter (pend : String → Bool) (U : String → Option UserRec)
    (x : SnapUser) : String → Option UserRec :=
  uSetAdmin (if uExists pend U x.username then U
    else uApprove (uRegister U x.username x.password) x.username) x.username x.admin

/-- The `users`-field action of the declared-users pass. -/
def usersStep1 (pend : String → Bool) (U : String → Option UserRec)
    (l : List SnapUser) : String → Option UserRec :=
  l.foldl (usersStep1Iter pend) U

/-- The `users`-field action of one declared pending user. -/
def usersStep3Iter (pend : String → Bool) (U : String → Option UserRec)
    (x : String × String) : String → Option UserRec :=
  if uExists pend U x.1 then U else uRegister U x.1 x.2

/-- The `users`-field action of the pending-users pass. -/
def usersStep3 (pend : String → Bool) (U : String → Option UserRec)
    (l : List (String × String)) : String → Option UserRec :=
  l.foldl (usersStep3Iter pend) U

/-- The `groups`-field action of one declared group. -/
def groupsEntry (G : String → Option (List String)) (gm : String × List String) :
    String → Option (List String) :=
  let G1 := if gMembers G gm.1 = [] then gCreate G gm.1 else G
  let cur := gMembers G1 gm.1
  (gm.2.filter (fun m => m ∉ cur)).foldl (fun G2 m => gAdd G2 m gm.1) G1

/-- The `groups`-field action of the declared-groups pass. -/
def groupsStep (G : String → Option (List String))
    (l : List (String × List String)) : String → Option (List String) :=
  l.foldl groupsEntry G

/-- The permission-map action of one package's grants for one key. -/
def permsInner (pkg : String) (P1 : String → String → List String)
    (gp : String × List String) : String → String → List String :=
  gp.2.foldl (fun P2 perm => pAdd P2 pkg gp.1 perm) P1

/-- The permission-map action of one package of the snapshot. -/
def permsEntry (P : String → String → List String)
    (pg : String × List (String × List String)) : String → String → List String :=
  pg.2.foldl (permsInner pg.1) P

/-- The permission-map action of the two package passes. -/
def permsStep (P : String → String → List String)
    (l : List (String × List (String × List String))) : String → String → List String :=
  l.foldl permsEntry P

/-- The admin flag of the last snapshot entry declaring username `u`
(later entries of the users list overwrite earlier ones). -/
def lastAdminOf : List SnapUser → String → Option Bool
  | [], _ => none
  | x :: l, u =>
    match lastAdminOf l u with
    | some b => some b
    | none => if x.username = u then some x.admin else none

/-- The password of the first snapshot entry declaring username `u`
(only the first entry registers; later ones see the user as existing). -/
def firstPwdOf : List SnapUser → String → Option String
  | [], _ => none
  | x :: l, u => if x.username = u then some x.password else firstPwdOf l u

/-- The password of the last pending-users entry declaring `u` (each
entry re-registers a still-pending user, so the last hash wins). -/
def lastPwdOf : List (String × String) → String → Option String
  | [], _ => none
  | x :: l, u =>
    match lastPwdOf l u with
    | some p => some p
    | none => if x.1 = u then some x.2 else none

/-- A mutable read-side backend over a `Store`, for `verify_user`:
`user_data` excludes pending users, `_get_password_hash` returns the
stored hash for pending users too. -/
def backendOfStore (st : Store) (verify : String → String → Bool) : Backend :=
  { mutable := true
    userid := none
    principals := []
    default_read := []
    default_write := []
    pwdVerify := verify
    user_permissions := fun _ => []
    group_permissions := fun _ => []
    is_admin := fun u => ((userDataU st.users u).map (fun r => r.admin)).getD false
    groups := fun _ => []
    password_hash := fun u => (st.users u).map (fun r => r.password)
    user_data := fun u => (userDataU st.users u).map (fun _ => ()) }

/-! ## Concrete instances used to exercise the theorems. -/

/-- A backend with no grants, no users and no configuration. -/
def emptyBackend : Backend :=
  { mutable := false
    userid := none
    principals := []
    default_read := []
    default_write := []
    pwdVerify := fun _ _ => false
    user_permissions := fun _ => []
    group_permissions := fun _ => []
    is_admin := fun _ => false
    groups := fun _ => []
    password_hash := fun _ => none
    user_data := fun _ => none }

/-- Defaults configured as in Scenario A plus an ordinary group that is
both readable and writable; no package has any grant. -/
def bDefaults : Backend :=
  { emptyBackend with
    default_read := ["authenticated", "bobs"]
    default_write := ["bobs"] }

/-- A backend granting `read` to user `zed` and to group `alpha` on every
package: dict iteration emits `user:zed` before `group:alpha`. -/
def bAclOrder : Backend :=
  { emptyBackend with
    user_permissions := fun _ => [("zed", ["read"])]
    group_permissions := fun _ => [("alpha", ["read"])] }

/-- A backend where `root` is an admin and `al` belongs to `devs`. -/
def bGroups : Backend :=
  { emptyBackend with
    is_admin := fun u => u = "root"
    groups := fun u => if u = "al" then ["devs"] else [] }

/-- A request by the admin `root` with no matching principals, against a
backend with no grants and no defaults. -/
def bAdminReq : Backend :=
  { emptyBackend with
    userid := some "root"
    principals := ["user:root"]
    is_admin := fun u => u = "root" }

/-- A store with the pending user `pete` and the approved user `amy`,
both with stored hash `"h"`. -/
def stVerify : Store :=
  { users := fun u =>
      if u = "pete" then some ⟨"h", false, true⟩
      else if u = "amy" then some ⟨"h", false, false⟩
      else none
    groups := fun _ => none
    userPerms := fun _ _ => []
    groupPerms := fun _ _ => []
    allowRegister := false }

/-- Token configuration with a signing key, a 10-second expiration window
and a mock digest function standing in for HMAC-SHA256 (any function
works; its output here contains no `':'`). -/
def cfgTok : TokenConfig :=
  { signing_key := some ['k']
    token_expiration := 10
    hmacHex := fun _ _ => ['a', 'b', 'c'] }

/-- Scenario D initial store: group `qa` with member `carol`. -/
def stScenD : Store :=
  { users := fun _ => none
    groups := fun g => if g = "qa" then some ["carol"] else none
    userPerms := fun _ _ => []
    groupPerms := fun _ _ => []
    allowRegister := false }

/-- Scenario D snapshot: declares only group `dev` with member `bob`. -/
def snapScenD : Snapshot :=
  { users := []
    groups := [("dev", ["bob"])]
    pending_users := []
    packageGroups := []
    packageUsers := []
    allow_register := true }

/-! ## Association-list (Python dict) lemmas. -/

theorem dget_dset {α : Type} (d : List (String × α)) (k q : String) (v : α) :
    dget (dset d k v) q = if q = k then some v else dget d q := by
  induction d with
  | nil => simp [dget, dset]
  | cons hd tl ih =>
    obtain ⟨k0, v0⟩ := hd
    by_cases h0 : k0 = k
    · subst h0
      simp only [dset, if_pos rfl, dget]
      by_cases hq : q = k0 <;> simp [hq]
    · simp only [dset, if_neg h0, dget, ih]
      by_cases hq : q = k0 <;> by_cases hk : q = k <;> simp_all

theorem dset_ne_nil {α : Type} (d : List (String × α)) (k : String) (v : α) :
    dset d k v ≠ [] := by
  cases d with
  | nil => simp [dset]
  | cons hd tl =>
    obtain ⟨k0, v0⟩ := hd
    simp only [dset]
    split <;> simp

theorem foldl_preserves_ne_nil {α β : Type} (F : List α → β → List α)
    (hF : ∀ d x, F d x ≠ []) :
    ∀ (l : List β) (d : List α), (d ≠ [] ∨ l ≠ []) → l.foldl F d ≠ []
  | [], d, h => by
    rcases h with h | h
    · simpa using h
    · simp at h
  | x :: l, d, _ => by
    rw [List.foldl_cons]
    exact foldl_preserves_ne_nil F hF l (F d x) (Or.inl (hF d x))

theorem dget_foldl_read (dr : List String) :
    ∀ (d : List (String × List String)) (q : String),
      dget (dr.foldl (fun d principal => dset d principal ["read"]) d) q =
        if q ∈ dr then some ["read"] else dget d q := by
  induction dr with
  | nil => intro d q; simp
  | cons x dr ih =>
    intro d q
    rw [List.foldl_cons, ih]
    by_cases hq : q = x <;> by_cases hm : q ∈ dr <;>
      simp_all [dget_dset, List.mem_cons]

theorem dget_foldl_write (dw : List String) :
    dw.Nodup →
    ∀ (d : List (String × List String)) (q : String),
      dget (dw.foldl (fun d principal =>
          match dget d principal with
          | some ps => dset d principal (ps ++ ["write"])
          | none => dset d principal ["write"]) d) q =
        if q ∈ dw then
          (match dget d q with
           | some ps => some (ps ++ ["write"])
           | none => some ["write"])
        else dget d q := by
  induction dw with
  | nil => intro _ d q; simp
  | cons x dw ih =>
    intro hnd d q
    obtain ⟨hx, hnd'⟩ := List.nodup_cons.mp hnd
    rw [List.foldl_cons, ih hnd']
    have hd1 : dget (match dget d x with
        | some ps => dset d x (ps ++ ["write"])
        | none => dset d x ["write"]) q =
        if q = x then
          (match dget d x with
           | some ps => some (ps ++ ["write"])
           | none => some ["write"])
        else dget d q := by
      cases hdx : dget d x <;> simp [dget_dset, hdx]
    rw [hd1]
    by_cases hq : q = x
    · subst hq
      simp [hx]
    · by_cases hm : q ∈ dw <;> simp_all [List.mem_cons]

/-- C1: on a package with no explicit user or group grant,
`allowed_permissions` returns exactly the configured defaults — each
principal of `default_read` maps to `read`, each principal of
`default_write` gets `write` appended to any existing entry, a principal
in both gets `read` and `write` (the configured names are translated by
`groups_to_principals`, and the write-set principals are assumed
pairwise distinct as the spec treats the lists as sets); and as soon as
one explicit grant exists, the defaults are entirely absent: the result
does not depend on `default_read`/`default_write` at all. -/
theorem c1_default_permissions (b : Backend) (package : String) :
    (b.user_permissions package = [] → b.group_permissions package = [] →
      (groups_to_principals b.default_write).Nodup →
      ∀ principal,
        dget (allowed_permissions b package) principal =
          if principal ∈ groups_to_principals b.default_read then
            (if principal ∈ groups_to_principals b.default_write then
              some ["read", "write"] else some ["read"])
          else if principal ∈ groups_to_principals b.default_write then
            some ["write"] else none) ∧
    ((b.user_permissions package ≠ [] ∨ b.group_permissions package ≠ []) →
      ∀ dr dw,
        allowed_permissions { b with default_read := dr, default_write := dw } package =
          allowed_permissions b package) := by
  constructor
  · intro hu hg hnd principal
    unfold allowed_permissions
    rw [hu, hg]
    simp only [List.foldl_nil, eq_self_iff_true, if_true]
    rw [dget_foldl_write _ hnd, dget_foldl_read]
    by_cases hr : principal ∈ groups_to_principals b.default_read <;>
      by_cases hw : principal ∈ groups_to_principals b.default_write <;>
        simp [hr, hw, dget]
  · intro hne dr dw
    have hall2 : (b.group_permissions package).foldl
        (fun d gv => dset d (group_to_principal gv.1) gv.2)
        ((b.user_permissions package).foldl
          (fun d uv => dset d ("user:" ++ uv.1) uv.2) []) ≠ [] := by
      rcases hne with h | h
      · exact foldl_preserves_ne_nil _ (fun _ _ => dset_ne_nil _ _ _) _ _
          (Or.inl (foldl_preserves_ne_nil _ (fun _ _ => dset_ne_nil _ _ _) _ _ (Or.inr h)))
      · exact foldl_preserves_ne_nil _ (fun _ _ => dset_ne_nil _ _ _) _ _ (Or.inr h)
    unfold allowed_permissions
    rw [if_neg hall2, if_neg hall2]

/-- C1 witness: with no grants anywhere, `default_read =
["authenticated", "bobs"]` and `default_write = ["bobs"]`, the group
`bobs` resolves to principal `group:bobs` with both permissions, the
pseudo-group `authenticated` to the `Authenticated` principal with
`read` only, and an unrelated principal to nothing. -/
theorem c1_witness :
    dget (allowed_permissions bDefaults "foo") "group:bobs" = some ["read", "write"] ∧
    dget (allowed_permissions bDefaults "foo") Authenticated = some ["read"] ∧
    dget (allowed_permissions bDefaults "foo") "user:zed" = none := by
  have h := (c1_default_permissions bDefaults "foo").1 rfl rfl (by decide)
  refine ⟨?_, ?_, ?_⟩
  · rw [h "group:bobs"]; decide
  · rw [h Authenticated]; decide
  · rw [h "user:zed"]; decide

/-- C2: `has_permission` is true exactly when the requester is an
authenticated admin, or the permission is granted by
`allowed_permissions` to at least one of the request's effective
principals. -/
theorem c2_has_permission (b : Backend) (package perm : String) :
    has_permission b package perm = true ↔
      ((∃ u, b.userid = some u ∧ b.is_admin u = true) ∨
        ∃ principal ∈ b.principals,
          perm ∈ (dget (allowed_permissions b package) principal).getD []) := by
  unfold has_permission
  cases h : b.userid <;> simp [h, List.any_eq_true]

theorem foldl_append_bind {α β : Type} (g : β → List α) (l : List β) :
    ∀ acc : List α, l.foldl (fun a x => a ++ g x) acc = acc ++ l.flatMap g := by
  induction l with
  | nil => intro acc; simp
  | cons x l ih => intro acc; simp [ih, List.append_assoc]

/-- Lexicographic character order on strings, then on the permission
name: the "sorted by principal string, then permission name" order of
the spec, one ACL entry against the next. -/
def aclLe (a b : AclKind × String × String) : Prop :=
  a.2.1.data < b.2.1.data ∨ (a.2.1 = b.2.1 ∧ ¬ b.2.2.data < a.2.2.data)

instance (a b : AclKind × String × String) : Decidable (aclLe a b) := by
  unfold aclLe
  infer_instance

/-- C8 counterexample: with `read` granted to user `zed` and to group
`alpha`, `get_acl` emits `(Allow, user:zed, read)` before
`(Allow, group:alpha, read)` — dict insertion order, which is not sorted
by principal string (`"group:alpha" < "user:zed"`). -/
theorem c8_counterexample :
    get_acl bAclOrder "foo" =
      [(AclKind.allow, "user:zed", "read"), (AclKind.allow, "group:alpha", "read")] ∧
    ¬ List.Pairwise aclLe (get_acl bAclOrder "foo") := by
  have h : get_acl bAclOrder "foo" =
      [(AclKind.allow, "user:zed", "read"), (AclKind.allow, "group:alpha", "read")] := by
    decide
  refine ⟨h, ?_⟩
  rw [h]
  decide

/-- C8 amended: `get_acl` emits one `(Allow, principal, permission)`
triple per permission per principal of `allowed_permissions`, in the
dict's insertion order (explicit user grants first, then group grants,
each permission tuple in order) — not sorted by principal and
permission. -/
theorem c8_acl_entries (b : Backend) (package : String) :
    get_acl b package =
      (allowed_permissions b package).flatMap
        (fun pp => pp.2.map (fun perm => (AclKind.allow, pp.1, perm))) ∧
    ∀ principal perm,
      ((AclKind.allow, principal, perm) ∈ get_acl b package ↔
        ∃ ps, (principal, ps) ∈ allowed_permissions b package ∧ perm ∈ ps) := by
  have hbind : get_acl b package =
      (allowed_permissions b package).flatMap
        (fun pp => pp.2.map (fun perm => (AclKind.allow, pp.1, perm))) := by
    unfold get_acl
    rw [foldl_append_bind]
    simp
  refine ⟨hbind, ?_⟩
  intro principal perm
  rw [hbind]
  simp only [List.mem_flatMap, List.mem_map]
  constructor
  · rintro ⟨pp, hpp, p, hp, heq⟩
    simp only [Prod.mk.injEq] at heq
    obtain ⟨-, h1, h2⟩ := heq
    subst h1; subst h2
    exact ⟨pp.2, hpp, hp⟩
  · rintro ⟨ps, hps, hp⟩
    exact ⟨(principal, ps), hps, perm, hp, rfl⟩

/-- C9: `in_group` is unconditionally true for the `everyone`
pseudo-group (written `"everyone"` or as the `Everyone` principal); for
any other group the anonymous user (`none`) is never a member; any
present user is in `authenticated`; a user with the admin flag is in
`admin`; and in every remaining case membership is looked up in the
user's groups. -/
theorem c9_in_group (b : Backend) :
    (∀ username, in_group b username "everyone" = true) ∧
    (∀ group, ¬(group = "everyone" ∨ group = Everyone) →
      in_group b none group = false) ∧
    (∀ u, in_group b (some u) "authenticated" = true) ∧
    (∀ u, b.is_admin u = true → in_group b (some u) "admin" = true) ∧
    (∀ u group, ¬(group = "everyone" ∨ group = Everyone) →
      ¬(group = "authenticated" ∨ group = Authenticated) →
      ¬(group = "admin" ∧ b.is_admin u = true) →
      (in_group b (some u) group = true ↔ group ∈ b.groups u)) := by
  refine ⟨?_, ?_, ?_, ?_, ?_⟩
  · intro username
    unfold in_group
    rw [if_pos (Or.inl rfl)]
  · intro group h
    unfold in_group
    rw [if_neg h]
  · intro u
    unfold in_group
    rw [if_neg (by decide)]
    simp
  · intro u hadm
    unfold in_group
    rw [if_neg (by decide)]
    have h2 : ¬(("admin" : String) = "authenticated" ∨ ("admin" : String) = Authenticated) := by
      decide
    simp [h2, hadm]
  · intro u group h1 h2 h3
    unfold in_group
    rw [if_neg h1]
    have hb : (decide (group = "admin") && b.is_admin u) = false := by
      rcases Bool.eq_false_or_eq_true (b.is_admin u) with ht | hf
      · have hg : ¬ group = "admin" := fun hg => h3 ⟨hg, ht⟩
        simp [hg]
      · simp [hf]
    simp [h2, hb]

/-- C9 witness: exercised on a backend where `root` is admin and `al`
belongs to `devs`. -/
theorem c9_witness :
    in_group bGroups (some "al") "everyone" = true ∧
    in_group bGroups none "qa" = false ∧
    in_group bGroups (some "al") "authenticated" = true ∧
    in_group bGroups (some "root") "admin" = true ∧
    (in_group bGroups (some "al") "devs" = true ↔ "devs" ∈ bGroups.groups "al") := by
  have h := c9_in_group bGroups
  exact ⟨h.1 (some "al"), h.2.1 "qa" (by decide), h.2.2.1 "al",
    h.2.2.2.1 "root" (by decide), h.2.2.2.2 "al" "devs" (by decide) (by decide) (by decide)⟩

/-- C10: when the stored hash is absent (`None`) or empty, `verify_user`
returns false, and it does so for every possible hashing-context verify
function — the context's verification is never consulted on the absent
hash. -/
theorem c10_verify_no_hash (b : Backend) (u p : String)
    (h : b.password_hash u = none ∨ b.password_hash u = some "") :
    verify_user b u p = false ∧
      ∀ v, verify_user { b with pwdVerify := v } u p = false := by
  constructor
  · rcases h with h | h <;> simp [verify_user, h]
  · intro v
    rcases h with h | h <;> simp [verify_user, h]

/-- C10 witness: an unknown user on the empty backend. -/
theorem c10_witness :
    verify_user emptyBackend "ghost" "pw" = false ∧
      ∀ v, verify_user { emptyBackend with pwdVerify := v } "ghost" "pw" = false :=
  c10_verify_no_hash emptyBackend "ghost" "pw" (Or.inl rfl)

/-- C7: on a mutable backend over a store, a Pending user never
verifies, whatever the verify function says; a non-pending (Approved)
user verifies exactly when the stored hash is non-empty (Python
truthiness of the hash) and the hashing context accepts the password
against it. -/
theorem c7_verify_pending (st : Store) (v : String → String → Bool) (u p : String)
    (r : UserRec) (hr : st.users u = some r) :
    (r.pending = true → verify_user (backendOfStore st v) u p = false) ∧
    (r.pending = false →
      (verify_user (backendOfStore st v) u p = true ↔
        r.password ≠ "" ∧ v p r.password = true)) := by
  constructor
  · intro hp
    simp [verify_user, backendOfStore, userDataU, hr, hp]
  · intro hp
    simp only [verify_user, backendOfStore, userDataU, hr, hp]
    by_cases hpw : r.password = "" <;> simp [hpw]

/-- C7 witness: with an always-accepting verify function, the pending
user `pete` fails and the approved user `amy` succeeds. -/
theorem c7_witness :
    verify_user (backendOfStore stVerify (fun _ _ => true)) "pete" "pw" = false ∧
    verify_user (backendOfStore stVerify (fun _ _ => true)) "amy" "pw" = true := by
  have h1 := c7_verify_pending stVerify (fun _ _ => true) "pete" "pw"
    ⟨"h", false, true⟩ (by decide)
  have h2 := c7_verify_pending stVerify (fun _ _ => true) "amy" "pw"
    ⟨"h", false, false⟩ (by decide)
  exact ⟨h1.1 rfl, (h2.2 rfl).mpr ⟨by decide, rfl⟩⟩

/-! ## Decimal rendering / parsing lemmas for the token service. -/

theorem digitChar_isDigit {d : Nat} (h : d < 10) : (Nat.digitChar d).isDigit = true := by
  interval_cases d <;> decide

theorem digitChar_toNat {d : Nat} (h : d < 10) : (Nat.digitChar d).toNat - 48 = d := by
  interval_cases d <;> decide

theorem natToCharsCore_eq_natDigits :
    ∀ (fuel n : Nat) (acc : List Char), n < 10 ^ fuel → 0 < fuel →
      natToCharsCore fuel n acc = natDigits n ++ acc
  | 0, _, _, _, hf => absurd hf (by omega)
  | fuel + 1, n, acc, h, _ => by
    unfold natToCharsCore
    by_cases hn : n / 10 = 0
    · have hlt : n < 10 := by omega
      rw [if_pos hn, natDigits, if_pos hlt, Nat.mod_eq_of_lt hlt]
      simp
    · have hge : ¬ n < 10 := by omega
      have hfuel : 0 < fuel := by
        by_contra hf
        have : fuel = 0 := by omega
        subst this
        simp at h
        omega
      have hdiv : n / 10 < 10 ^ fuel := by
        rw [Nat.div_lt_iff_lt_mul (by omega)]
        calc n < 10 ^ (fuel + 1) := h
          _ = 10 ^ fuel * 10 := by rw [pow_succ]
      rw [if_neg hn, natToCharsCore_eq_natDigits fuel (n / 10) _ hdiv hfuel]
      conv_rhs => rw [natDigits, if_neg hge]
      simp

theorem natToChars_eq_natDigits (n : Nat) : natToChars n = natDigits n := by
  have h : n < 10 ^ (n + 1) :=
    lt_of_lt_of_le (Nat.lt_pow_self (by omega) n)
      (Nat.pow_le_pow_right (by omega) (Nat.le_succ n))
  unfold natToChars
  rw [natToCharsCore_eq_natDigits (n + 1) n [] h (Nat.succ_pos n)]
  simp

theorem natDigits_ne_nil (n : Nat) : natDigits n ≠ [] := by
  rw [natDigits]
  split <;> simp

theorem natDigits_all_digits (n : Nat) : ∀ c ∈ natDigits n, c.isDigit = true := by
  induction n using Nat.strong_induction_on with
  | _ n ih =>
    rw [natDigits]
    by_cases h : n < 10
    · rw [if_pos h]
      intro c hc
      simp only [List.mem_singleton] at hc
      subst hc
      exact digitChar_isDigit h
    · rw [if_neg h]
      intro c hc
      rw [List.mem_append] at hc
      rcases hc with hc | hc
      · exact ih (n / 10) (Nat.div_lt_self (by omega) (by omega)) c hc
      · simp only [List.mem_singleton] at hc
        subst hc
        exact digitChar_isDigit (Nat.mod_lt _ (by omega))

theorem natDigits_no_colon (n : Nat) : ':' ∉ natDigits n := by
  intro h
  have := natDigits_all_digits n ':' h
  simp at this

theorem natDigits_foldl (n : Nat) :
    (natDigits n).foldl (fun a c => 10 * a + (c.toNat - 48)) 0 = n := by
  induction n using Nat.strong_induction_on with
  | _ n ih =>
    rw [natDigits]
    by_cases h : n < 10
    · rw [if_pos h]
      simp [digitChar_toNat h]
    · rw [if_neg h, List.foldl_append,
        ih (n / 10) (Nat.div_lt_self (by omega) (by omega))]
      simp only [List.foldl_cons, List.foldl_nil]
      rw [digitChar_toNat (Nat.mod_lt _ (by omega))]
      omega

theorem parseDigits_natDigits (n : Nat) : parseDigits (natDigits n) = some n := by
  unfold parseDigits
  rw [if_pos ⟨natDigits_ne_nil n, by
    rw [List.all_eq_true]
    intro c hc
    exact natDigits_all_digits n c hc⟩]
  rw [natDigits_foldl]

theorem parsePyInt_natDigits (n : Nat) : parsePyInt (natDigits n) = some (n : Int) := by
  have hne := natDigits_ne_nil n
  obtain ⟨c, cs, hc⟩ := List.exists_cons_of_ne_nil hne
  have hcd : c.isDigit = true := natDigits_all_digits n c (by rw [hc]; exact List.mem_cons_self _ _)
  have hcne : c ≠ '-' := by
    intro h
    rw [h] at hcd
    exact absurd hcd (by decide)
  have hparse : parseDigits (natDigits n) = some n := parseDigits_natDigits n
  rw [hc] at hparse ⊢
  unfold parsePyInt
  split
  · rename_i rest heq
    injection heq with h1 h2
    exact absurd h1 hcne
  · rw [hparse]
    rfl

theorem parsePyInt_natToChars (n : Nat) : parsePyInt (natToChars n) = some (n : Int) := by
  rw [natToChars_eq_natDigits]
  exact parsePyInt_natDigits n

theorem natToChars_no_colon (n : Nat) : ':' ∉ natToChars n := by
  rw [natToChars_eq_natDigits]
  exact natDigits_no_colon n

theorem intToChars_natCast (n : Nat) : intToChars (n : Int) = natToChars n := by
  unfold intToChars
  rw [if_neg (by omega)]
  simp

/-! ## `split(":")` lemmas. -/

theorem dropLast_cons_two {α : Type} (x y : α) (l : List α) :
    (x :: y :: l).dropLast = x :: (y :: l).dropLast := rfl

theorem splitCol_cons (c : Char) (rest : List Char) :
    splitCol (c :: rest) =
      if c = ':' then [] :: splitCol rest
      else (c :: (splitCol rest).headD []) :: (splitCol rest).tail := rfl

theorem splitCol_ne_nil (s : List Char) : splitCol s ≠ [] := by
  cases s with
  | nil => simp [splitCol]
  | cons c rest =>
    rw [splitCol_cons]
    split <;> simp

theorem splitCol_no_colon (s : List Char) (h : ':' ∉ s) : splitCol s = [s] := by
  induction s with
  | nil => rfl
  | cons c rest ih =>
    have hc : c ≠ ':' := fun hc => h (hc ▸ List.mem_cons_self _ _)
    have hr : ':' ∉ rest := fun hr => h (List.mem_cons_of_mem _ hr)
    rw [splitCol_cons, ih hr, if_neg hc]
    simp

theorem splitCol_append (a b : List Char) (ha : ':' ∉ a) :
    splitCol (a ++ ':' :: b) = a :: splitCol b := by
  induction a with
  | nil =>
    simp only [List.nil_append]
    rw [splitCol_cons, if_pos rfl]
  | cons c a ih =>
    have hc : c ≠ ':' := fun hc => ha (hc ▸ List.mem_cons_self _ _)
    have ha' : ':' ∉ a := fun hr => ha (List.mem_cons_of_mem _ hr)
    simp only [List.cons_append]
    rw [splitCol_cons, ih ha', if_neg hc]
    simp

theorem splitCol_eq_single (s : List Char) :
    ∀ x, splitCol s = [x] → x = s ∧ ':' ∉ s := by
  induction s with
  | nil =>
    intro x hx
    simp [splitCol] at hx
    simp [hx]
  | cons c rest ih =>
    intro x hx
    obtain ⟨p, ps, h⟩ := List.exists_cons_of_ne_nil (splitCol_ne_nil rest)
    rw [splitCol_cons, h] at hx
    by_cases hc : c = ':'
    · rw [if_pos hc] at hx
      simp at hx
    · rw [if_neg hc] at hx
      simp only [List.headD_cons, List.tail_cons, List.cons.injEq] at hx
      obtain ⟨hx1, hx2⟩ := hx
      subst hx2
      obtain ⟨hp, hnp⟩ := ih p h
      subst hp
      refine ⟨by rw [hx1], ?_⟩
      intro hmem
      rcases List.mem_cons.mp hmem with hm | hm
      · exact hc hm.symm
      · exact hnp hm

/-- The last piece of a colon-split is never longer than the input. -/
theorem splitCol_getLast_le (s : List Char) :
    ((splitCol s).getLast?.getD []).length ≤ s.length := by
  induction s with
  | nil => simp [splitCol]
  | cons c rest ih =>
    obtain ⟨p, ps, h⟩ := List.exists_cons_of_ne_nil (splitCol_ne_nil rest)
    rw [splitCol_cons, h]
    rw [h] at ih
    by_cases hc : c = ':'
    · rw [if_pos hc, List.getLast?_cons_cons]
      simp only [List.length_cons]
      omega
    · rw [if_neg hc]
      simp only [List.headD_cons, List.tail_cons]
      cases ps with
      | nil =>
        simp only [List.getLast?_singleton, Option.getD_some] at ih ⊢
        simp only [List.length_cons]
        omega
      | cons q qs =>
        rw [List.getLast?_cons_cons]
        rw [List.getLast?_cons_cons] at ih
        simp only [List.length_cons]
        omega

/-- When the input contains a colon, the last piece of the split is
strictly shorter than the input. -/
theorem splitCol_getLast_lt (s : List Char) (hs : ':' ∈ s) :
    ((splitCol s).getLast?.getD []).length < s.length := by
  induction s with
  | nil => simp at hs
  | cons c rest ih =>
    obtain ⟨p, ps, h⟩ := List.exists_cons_of_ne_nil (splitCol_ne_nil rest)
    rw [splitCol_cons, h]
    by_cases hc : c = ':'
    · rw [if_pos hc, List.getLast?_cons_cons]
      have := splitCol_getLast_le rest
      rw [h] at this
      simp only [List.length_cons]
      omega
    · have hrest : ':' ∈ rest := by
        rcases List.mem_cons.mp hs with hm | hm
        · exact absurd hm.symm hc
        · exact hm
      rw [if_neg hc]
      simp only [List.headD_cons, List.tail_cons]
      cases ps with
      | nil =>
        obtain ⟨hp, hnp⟩ := splitCol_eq_single rest p h
        exact absurd (hp ▸ hrest) hnp
      | cons q qs =>
        rw [List.getLast?_cons_cons]
        have := ih hrest
        rw [h, List.getLast?_cons_cons] at this
        simp only [List.length_cons]
        omega

/-- Evaluation of `validate_signup_token` on a token of the shape
`username:timestamp:signaturepart` with a colon-free username and
timestamp piece: the username and timestamp parse out, then the token is
either expired or the popped last piece is compared against the
recomputed HMAC. -/
theorem validate_shape (c : TokenConfig) (key : List Char)
    (hkey : c.signing_key = some key) (u ts sigp : List Char)
    (hu : ':' ∉ u) (hts : ':' ∉ ts) (t : Int)
    (hparse : parsePyInt ts = some t) (now : Nat) :
    validate_signup_token c (u ++ ':' :: (ts ++ ':' :: sigp)) now =
      if t + (c.token_expiration : Int) < (now : Int) then Except.ok none
      else if (splitCol sigp).getLast?.getD [] = c.hmacHex key (u ++ ':' :: intToChars t)
      then Except.ok (some u) else Except.ok none := by
  have hsplit : splitCol (u ++ ':' :: (ts ++ ':' :: sigp)) = u :: ts :: splitCol sigp := by
    rw [splitCol_append _ _ hu, splitCol_append _ _ hts]
  obtain ⟨p, ps, hp⟩ := List.exists_cons_of_ne_nil (splitCol_ne_nil sigp)
  unfold validate_signup_token
  rw [hkey]
  simp only [hsplit, hp]
  rw [List.getLast?_cons_cons, List.getLast?_cons_cons]
  simp only [List.dropLast_cons₂]
  rw [hparse]

/-- C3 counterexample: the claim quantifies over every username, but the
token format breaks for a username containing `':'`.  For `u = "x:5"`,
issued at time 100 and validated immediately (well inside the 10-second
window), the parser reads username `"x"` and timestamp `5`, judges the
token expired and returns `None` instead of `u`. -/
theorem c3_counterexample :
    (get_signup_token cfgTok ['x', ':', '5'] 100).toOption.getD [] =
      ['x', ':', '5', ':', '1', '0', '0', ':', 'a', 'b', 'c'] ∧
    validate_signup_token cfgTok
      ['x', ':', '5', ':', '1', '0', '0', ':', 'a', 'b', 'c'] 100 = Except.ok none ∧
    (Except.ok none : Except PyErr (Option (List Char))) ≠
      Except.ok (some ['x', ':', '5']) := by
  refine ⟨rfl, rfl, ?_⟩
  intro h
  simp at h

/-- C3 amended: for every username **containing no `':'`**, issuing a
token at time `t` gives `"u:t:hmac(u:t)"`; validating it at any time up
to `t` plus the expiration window returns the username (the HMAC hex
digest contains no `':'`); validating after the window returns `None`;
and validating with the signature segment altered to any other string of
the same length returns `None`, at every validation time. -/
theorem c3_token_validation (c : TokenConfig) (key u sig' : List Char) (t now : Nat)
    (hkey : c.signing_key = some key) (hu : ':' ∉ u) :
    (get_signup_token c u t =
      Except.ok ((u ++ ':' :: natToChars t) ++
        ':' :: c.hmacHex key (u ++ ':' :: natToChars t))) ∧
    (':' ∉ c.hmacHex key (u ++ ':' :: natToChars t) →
      now ≤ t + c.token_expiration →
      validate_signup_token c
        ((u ++ ':' :: natToChars t) ++
          ':' :: c.hmacHex key (u ++ ':' :: natToChars t)) now =
        Except.ok (some u)) ∧
    (t + c.token_expiration < now →
      validate_signup_token c
        ((u ++ ':' :: natToChars t) ++
          ':' :: c.hmacHex key (u ++ ':' :: natToChars t)) now =
        Except.ok none) ∧
    (sig'.length = (c.hmacHex key (u ++ ':' :: natToChars t)).length →
      sig' ≠ c.hmacHex key (u ++ ':' :: natToChars t) →
      validate_signup_token c ((u ++ ':' :: natToChars t) ++ ':' :: sig') now =
        Except.ok none) := by
  have hts := natToChars_no_colon t
  have hparse := parsePyInt_natToChars t
  have hassoc : ∀ z : List Char,
      (u ++ ':' :: natToChars t) ++ ':' :: z = u ++ ':' :: (natToChars t ++ ':' :: z) := by
    intro z
    simp [List.append_assoc]
  refine ⟨?_, ?_, ?_, ?_⟩
  · unfold get_signup_token
    rw [hkey]
  · intro hsig hnow
    rw [hassoc, validate_shape c key hkey u (natToChars t) _ hu hts ((t : Int)) hparse now]
    rw [if_neg (by omega)]
    rw [splitCol_no_colon _ hsig]
    simp only [List.getLast?_singleton, Option.getD_some]
    rw [intToChars_natCast, if_pos rfl]
  · intro hnow
    rw [hassoc, validate_shape c key hkey u (natToChars t) _ hu hts ((t : Int)) hparse now]
    rw [if_pos (by omega)]
  · intro hlen hne
    rw [hassoc, validate_shape c key hkey u (natToChars t) _ hu hts ((t : Int)) hparse now]
    by_cases hexp : (t : Int) + (c.token_expiration : Int) < (now : Int)
    · rw [if_pos hexp]
    · rw [if_neg hexp, intToChars_natCast, if_neg ?_]
      by_cases hcol : ':' ∈ sig'
      · intro heq
        have h1 := splitCol_getLast_lt sig' hcol
        rw [heq, hlen] at h1
        exact lt_irrefl _ h1
      · rw [splitCol_no_colon _ hcol]
        simp only [List.getLast?_singleton, Option.getD_some]
        exact hne

/-- C3 witness: username `bob`, issued at 5 with a 10-second window:
validation at 6 returns `bob`, at 100 returns `None`, and with the mock
signature `abc` altered to `xbc` returns `None`. -/
theorem c3_witness :
    validate_signup_token cfgTok
      ((['b', 'o', 'b'] ++ ':' :: natToChars 5) ++
        ':' :: cfgTok.hmacHex ['k'] (['b', 'o', 'b'] ++ ':' :: natToChars 5)) 6 =
      Except.ok (some ['b', 'o', 'b']) ∧
    validate_signup_token cfgTok
      ((['b', 'o', 'b'] ++ ':' :: natToChars 5) ++
        ':' :: cfgTok.hmacHex ['k'] (['b', 'o', 'b'] ++ ':' :: natToChars 5)) 100 =
      Except.ok none ∧
    validate_signup_token cfgTok
      ((['b', 'o', 'b'] ++ ':' :: natToChars 5) ++ ':' :: ['x', 'b', 'c']) 6 =
      Except.ok none := by
  have h6 := c3_token_validation cfgTok ['k'] ['b', 'o', 'b'] ['x', 'b', 'c'] 5 6
    rfl (by decide)
  have h100 := c3_token_validation cfgTok ['k'] ['b', 'o', 'b'] ['x', 'b', 'c'] 5 100
    rfl (by decide)
  exact ⟨h6.2.1 (by decide) (by decide), h100.2.2.1 (by decide),
    h6.2.2.2 (by decide) (by decide)⟩

/-- C4: contrary to the claim (and to the function's own docstring,
which promises `None` on failed validation), `validate_signup_token`
raises on malformed tokens: `IndexError` when the token has fewer than
two `':'`-separated pieces before the signature, `ValueError` when the
timestamp piece is not numeric.  Expired tokens do return the absent
result. -/
theorem c4_validate_raises :
    validate_signup_token cfgTok [] 0 = Except.error PyErr.indexError ∧
    validate_signup_token cfgTok ['a', 'b'] 0 = Except.error PyErr.indexError ∧
    validate_signup_token cfgTok ['a', ':', 'b'] 0 = Except.error PyErr.indexError ∧
    validate_signup_token cfgTok ['a', ':', 'b', ':', 'c'] 0 =
      Except.error PyErr.valueError ∧
    validate_signup_token cfgTok ['a', ':', '0', ':', 'x'] 99 = Except.ok none :=
  ⟨rfl, rfl, rfl, rfl, rfl⟩

/-! ## Generic fold lemmas. -/

theorem foldl_invar {σ α : Type} (Q : σ → Prop) (f : σ → α → σ) :
    ∀ (l : List α), (∀ s a, a ∈ l → Q s → Q (f s a)) → ∀ s, Q s → Q (l.foldl f s)
  | [], _, _, hs => hs
  | x :: l, hf, s, hs =>
    foldl_invar Q f l (fun s a ha => hf s a (List.mem_cons_of_mem _ ha)) (f s x)
      (hf s x (List.mem_cons_self _ _) hs)

theorem foldl_ensures {σ α : Type} (Q : α → σ → Prop) (f : σ → α → σ) :
    ∀ (l : List α), (∀ s a, a ∈ l → Q a (f s a)) →
      (∀ s a b, a ∈ l → Q a s → Q a (f s b)) →
      ∀ s a, a ∈ l → Q a (l.foldl f s)
  | [], _, _, _, _, ha => absurd ha (List.not_mem_nil _)
  | x :: l, hens, hpres, s, a, ha => by
    rw [List.foldl_cons]
    rcases List.mem_cons.mp ha with h | h
    · subst h
      exact foldl_invar (Q a) f l
        (fun s b hb => hpres s a b ha) (f s a)
        (hens s a ha)
    · exact foldl_ensures Q f l
        (fun s b hb => hens s b (List.mem_cons_of_mem _ hb))
        (fun s b c hb => hpres s b c (List.mem_cons_of_mem _ hb)) (f s x) a h

theorem foldl_id {σ α : Type} (f : σ → α → σ) (l : List α) (s : σ)
    (h : ∀ a ∈ l, f s a = s) : l.foldl f s = s := by
  induction l with
  | nil => rfl
  | cons x l ih =>
    rw [List.foldl_cons, h x (List.mem_cons_self _ _)]
    exact ih (fun a ha => h a (List.mem_cons_of_mem _ ha))

/-! ## Decomposition of `load` into its per-field actions. -/

theorem foldl_users_only {β : Type} (f : Store → β → Store)
    (g : (String → Option UserRec) → β → (String → Option UserRec))
    (hf : ∀ st x, f st x = { st with users := g st.users x }) :
    ∀ (l : List β) (st : Store), l.foldl f st = { st with users := l.foldl g st.users }
  | [], st => rfl
  | x :: l, st => by
    rw [List.foldl_cons, List.foldl_cons, hf, foldl_users_only f g hf l]

theorem foldl_groups_only {β : Type} (f : Store → β → Store)
    (g : (String → Option (List String)) → β → (String → Option (List String)))
    (hf : ∀ st x, f st x = { st with groups := g st.groups x }) :
    ∀ (l : List β) (st : Store), l.foldl f st = { st with groups := l.foldl g st.groups }
  | [], st => rfl
  | x :: l, st => by
    rw [List.foldl_cons, List.foldl_cons, hf, foldl_groups_only f g hf l]

theorem foldl_userPerms_only {β : Type} (f : Store → β → Store)
    (g : (String → String → List String) → β → (String → String → List String))
    (hf : ∀ st x, f st x = { st with userPerms := g st.userPerms x }) :
    ∀ (l : List β) (st : Store), l.foldl f st = { st with userPerms := l.foldl g st.userPerms }
  | [], st => rfl
  | x :: l, st => by
    rw [List.foldl_cons, List.foldl_cons, hf, foldl_userPerms_only f g hf l]

theorem foldl_groupPerms_only {β : Type} (f : Store → β → Store)
    (g : (String → String → List String) → β → (String → String → List String))
    (hf : ∀ st x, f st x = { st with groupPerms := g st.groupPerms x }) :
    ∀ (l : List β) (st : Store), l.foldl f st = { st with groupPerms := l.foldl g st.groupPerms }
  | [], st => rfl
  | x :: l, st => by
    rw [List.foldl_cons, List.foldl_cons, hf, foldl_groupPerms_only f g hf l]

theorem loadUserStep_eq (pend : String → Bool) (st : Store) (x : SnapUser) :
    loadUserStep pend st x = { st with users := usersStep1Iter pend st.users x } := by
  unfold loadUserStep usersStep1Iter Store.set_user_admin Store.registerU Store.approve_user
  by_cases h : uExists pend st.users x.username <;> simp [h]

theorem loadPendingStep_eq (pend : String → Bool) (st : Store) (x : String × String) :
    loadPendingStep pend st x = { st with users := usersStep3Iter pend st.users x } := by
  unfold loadPendingStep usersStep3Iter Store.registerU
  by_cases h : uExists pend st.users x.1 <;> simp [h]

theorem loadGroupStep_eq (st : Store) (gm : String × List String) :
    loadGroupStep st gm = { st with groups := groupsEntry st.groups gm } := by
  unfold loadGroupStep groupsEntry Store.group_members Store.create_group
  rw [foldl_groups_only (fun st2 m => st2.edit_user_group m gm.1)
    (fun G2 m => gAdd G2 m gm.1) (fun st2 m => rfl)]
  by_cases h : gMembers st.groups gm.1 = [] <;> simp [h]

theorem loadPkgGroupInner_eq (pkg : String) (gp : String × List String) (st1 : Store) :
    gp.2.foldl (fun st2 perm => st2.edit_group_permission pkg gp.1 perm) st1 =
      { st1 with groupPerms := permsInner pkg st1.groupPerms gp } := by
  unfold permsInner
  exact foldl_groupPerms_only (fun st2 perm => st2.edit_group_permission pkg gp.1 perm)
    (fun P2 perm => pAdd P2 pkg gp.1 perm) (fun _ _ => rfl) gp.2 st1

theorem loadPkgUserInner_eq (pkg : String) (up : String × List String) (st1 : Store) :
    up.2.foldl (fun st2 perm => st2.edit_user_permission pkg up.1 perm) st1 =
      { st1 with userPerms := permsInner pkg st1.userPerms up } := by
  unfold permsInner
  exact foldl_userPerms_only (fun st2 perm => st2.edit_user_permission pkg up.1 perm)
    (fun P2 perm => pAdd P2 pkg up.1 perm) (fun _ _ => rfl) up.2 st1

theorem loadPkgGroupStep_eq (st : Store) (pg : String × List (String × List String)) :
    loadPkgGroupStep st pg = { st with groupPerms := permsEntry st.groupPerms pg } := by
  unfold loadPkgGroupStep permsEntry
  exact foldl_groupPerms_only
    (fun st1 gp => gp.2.foldl (fun st2 perm => st2.edit_group_permission pg.1 gp.1 perm) st1)
    (permsInner pg.1) (fun st1 gp => loadPkgGroupInner_eq pg.1 gp st1) pg.2 st

theorem loadPkgUserStep_eq (st : Store) (pu : String × List (String × List String)) :
    loadPkgUserStep st pu = { st with userPerms := permsEntry st.userPerms pu } := by
  unfold loadPkgUserStep permsEntry
  exact foldl_userPerms_only
    (fun st1 up => up.2.foldl (fun st2 perm => st2.edit_user_permission pu.1 up.1 perm) st1)
    (permsInner pu.1) (fun st1 up => loadPkgUserInner_eq pu.1 up st1) pu.2 st

/-- `load` acts independently on the five fields of the store. -/
theorem load_eq (s : Store) (d : Snapshot) :
    load s d =
      { users := usersStep3 (pendingB s.users)
          (usersStep1 (pendingB s.users) s.users d.users) d.pending_users
        groups := groupsStep s.groups d.groups
        userPerms := permsStep s.userPerms d.packageUsers
        groupPerms := permsStep s.groupPerms d.packageGroups
        allowRegister := d.allow_register } := by
  simp only [load]
  rw [foldl_users_only (loadUserStep (pendingB s.users)) (usersStep1Iter (pendingB s.users))
      (loadUserStep_eq (pendingB s.users)) d.users s,
    foldl_groups_only loadGroupStep groupsEntry loadGroupStep_eq d.groups _,
    foldl_users_only (loadPendingStep (pendingB s.users)) (usersStep3Iter (pendingB s.users))
      (loadPendingStep_eq (pendingB s.users)) d.pending_users _,
    foldl_groupPerms_only loadPkgGroupStep permsEntry loadPkgGroupStep_eq d.packageGroups _,
    foldl_userPerms_only loadPkgUserStep permsEntry loadPkgUserStep_eq d.packageUsers _]
  rfl

/-! ## Permission-map lemmas. -/

theorem pAdd_mem_mono (P : String → String → List String) (pkg k perm pk h p : String)
    (hp : p ∈ P pk h) : p ∈ pAdd P pkg k perm pk h := by
  by_cases hm : perm ∈ P pkg k
  · simp [pAdd, hm, hp]
  · simp only [pAdd, if_neg hm]
    by_cases hc : pk = pkg ∧ h = k
    · rw [if_pos hc]
      obtain ⟨h1, h2⟩ := hc
      subst h1
      subst h2
      exact List.mem_append_left _ hp
    · simp [hc, hp]

theorem pAdd_of_mem (P : String → String → List String) (pkg k perm : String)
    (hm : perm ∈ P pkg k) : pAdd P pkg k perm = P := by
  simp [pAdd, hm]

theorem pAdd_self (P : String → String → List String) (pkg k perm : String) :
    perm ∈ pAdd P pkg k perm pkg k := by
  by_cases hm : perm ∈ P pkg k
  · simp [pAdd, hm]
  · simp [pAdd, hm]

theorem permsInner_mono (pkg : String) (gp : String × List String)
    (P : String → String → List String) (pk h p : String) (hp : p ∈ P pk h) :
    p ∈ permsInner pkg P gp pk h := by
  unfold permsInner
  exact foldl_invar (fun P2 => p ∈ P2 pk h) _ gp.2
    (fun P2 perm _ h2 => pAdd_mem_mono P2 pkg gp.1 perm pk h p h2) P hp

theorem permsEntry_mono (pg : String × List (String × List String))
    (P : String → String → List String) (pk h p : String) (hp : p ∈ P pk h) :
    p ∈ permsEntry P pg pk h := by
  unfold permsEntry
  exact foldl_invar (fun P1 => p ∈ P1 pk h) _ pg.2
    (fun P1 gp _ h1 => permsInner_mono pg.1 gp P1 pk h p h1) P hp

theorem permsStep_mono (l : List (String × List (String × List String)))
    (P : String → String → List String) (pk h p : String) (hp : p ∈ P pk h) :
    p ∈ permsStep P l pk h := by
  unfold permsStep
  exact foldl_invar (fun P1 => p ∈ P1 pk h) _ l
    (fun P1 pg _ h1 => permsEntry_mono pg P1 pk h p h1) P hp

theorem permsInner_declared (pkg : String) (gp : String × List String)
    (P : String → String → List String) :
    ∀ perm ∈ gp.2, perm ∈ permsInner pkg P gp pkg gp.1 := by
  intro perm hperm
  unfold permsInner
  exact foldl_ensures (fun perm P2 => perm ∈ P2 pkg gp.1)
    (fun P2 perm => pAdd P2 pkg gp.1 perm) gp.2
    (fun P2 a _ => pAdd_self P2 pkg gp.1 a)
    (fun P2 a b _ h2 => pAdd_mem_mono P2 pkg gp.1 b pkg gp.1 a h2) P perm hperm

theorem permsEntry_declared (pg : String × List (String × List String))
    (P : String → String → List String) :
    ∀ gp ∈ pg.2, ∀ perm ∈ gp.2, perm ∈ permsEntry P pg pg.1 gp.1 := by
  intro gp hgp perm hperm
  unfold permsEntry
  exact foldl_ensures
    (fun gp P1 => ∀ perm ∈ gp.2, perm ∈ P1 pg.1 gp.1) (permsInner pg.1) pg.2
    (fun P1 a _ => permsInner_declared pg.1 a P1)
    (fun P1 a b _ h1 perm2 hp2 =>
      permsInner_mono pg.1 b P1 pg.1 a.1 perm2 (h1 perm2 hp2)) P gp hgp perm hperm

theorem permsStep_declared (l : List (String × List (String × List String)))
    (P : String → String → List String) :
    ∀ pg ∈ l, ∀ gp ∈ pg.2, ∀ perm ∈ gp.2, perm ∈ permsStep P l pg.1 gp.1 := by
  intro pg hpg
  unfold permsStep
  exact foldl_ensures
    (fun pg P1 => ∀ gp ∈ pg.2, ∀ perm ∈ gp.2, perm ∈ P1 pg.1 gp.1) permsEntry l
    (fun P1 a _ => permsEntry_declared a P1)
    (fun P1 a b _ h1 gp hgp perm hperm =>
      permsEntry_mono b P1 a.1 gp.1 perm (h1 gp hgp perm hperm)) P pg hpg

theorem permsEntry_id (P : String → String → List String)
    (pg : String × List (String × List String))
    (h : ∀ gp ∈ pg.2, ∀ perm ∈ gp.2, perm ∈ P pg.1 gp.1) : permsEntry P pg = P := by
  unfold permsEntry
  refine foldl_id _ pg.2 P ?_
  intro gp hgp
  unfold permsInner
  refine foldl_id _ gp.2 P ?_
  intro perm hperm
  exact pAdd_of_mem P pg.1 gp.1 perm (h gp hgp perm hperm)

theorem permsStep_idem (P : String → String → List String)
    (l : List (String × List (String × List String))) :
    permsStep (permsStep P l) l = permsStep P l := by
  conv_lhs => unfold permsStep
  refine foldl_id _ l _ ?_
  intro pg hpg
  exact permsEntry_id _ pg (fun gp hgp perm hperm =>
    permsStep_declared l P pg hpg gp hgp perm hperm)

/-! ## Group-membership lemmas. -/

theorem gCreate_of_isSome (G : String → Option (List String)) (g : String)
    (h : (G g).isSome) : gCreate G g = G := by
  simp [gCreate, h]

theorem gCreate_creates (G : String → Option (List String)) (g : String) :
    ((gCreate G g) g).isSome := by
  unfold gCreate
  split
  · assumption
  · simp

theorem gCreate_isSome_pres (G : String → Option (List String)) (g h' : String)
    (h : (G h').isSome) : ((gCreate G g) h').isSome := by
  unfold gCreate
  split
  · exact h
  · by_cases hg : h' = g <;> simp [hg, h]

theorem gCreate_mem_pres (G : String → Option (List String)) (g h' m : String)
    (h : m ∈ gMembers G h') : m ∈ gMembers (gCreate G g) h' := by
  unfold gCreate
  split
  · exact h
  · rename_i hnone
    by_cases hg : h' = g
    · subst hg
      rw [Option.not_isSome_iff_eq_none] at hnone
      simp [gMembers, hnone] at h
    · simp [gMembers, hg]
      exact h

theorem gAdd_isSome_pres (G : String → Option (List String)) (u g h' : String)
    (h : (G h').isSome) : ((gAdd G u g) h').isSome := by
  simp only [gAdd]
  split
  · exact h
  · by_cases hg : h' = g <;> simp [hg, h]

theorem gAdd_mem_pres (G : String → Option (List String)) (u g h' m : String)
    (h : m ∈ gMembers G h') : m ∈ gMembers (gAdd G u g) h' := by
  simp only [gAdd]
  split
  · exact h
  · by_cases hg : h' = g
    · have heq : gMembers (fun hh => if hh = g then some (gMembers G g ++ [u]) else G hh) h'
          = gMembers G g ++ [u] := by
        unfold gMembers
        simp [hg]
      rw [heq]
      rw [hg] at h
      exact List.mem_append_left _ h
    · have heq : gMembers (fun hh => if hh = g then some (gMembers G g ++ [u]) else G hh) h'
          = gMembers G h' := by
        unfold gMembers
        simp [hg]
      rw [heq]
      exact h

theorem gAdd_self (G : String → Option (List String)) (u g : String) :
    u ∈ gMembers (gAdd G u g) g := by
  simp only [gAdd]
  split
  · assumption
  · simp [gMembers]

theorem gCreate_other (G : String → Option (List String)) (g h' : String)
    (h : h' ≠ g) : (gCreate G g) h' = G h' := by
  unfold gCreate
  split
  · rfl
  · exact if_neg h

theorem gAdd_other (G : String → Option (List String)) (u g h' : String)
    (h : h' ≠ g) : (gAdd G u g) h' = G h' := by
  simp only [gAdd]
  split
  · rfl
  · exact if_neg h

theorem groupsEntry_isSome_pres (G : String → Option (List String))
    (gm : String × List String) (h' : String) (h : (G h').isSome) :
    ((groupsEntry G gm) h').isSome := by
  simp only [groupsEntry]
  refine foldl_invar (fun G2 => (G2 h').isSome) _ _
    (fun G2 m _ h2 => gAdd_isSome_pres G2 m gm.1 h' h2) _ ?_
  split
  · exact gCreate_isSome_pres G gm.1 h' h
  · exact h

theorem groupsEntry_mem_pres (G : String → Option (List String))
    (gm : String × List String) (h' m : String) (h : m ∈ gMembers G h') :
    m ∈ gMembers (groupsEntry G gm) h' := by
  simp only [groupsEntry]
  refine foldl_invar (fun G2 => m ∈ gMembers G2 h') _ _
    (fun G2 a _ h2 => gAdd_mem_pres G2 a gm.1 h' m h2) _ ?_
  split
  · exact gCreate_mem_pres G gm.1 h' m h
  · exact h

theorem groupsEntry_other (G : String → Option (List String))
    (gm : String × List String) (h' : String) (h : h' ≠ gm.1) :
    (groupsEntry G gm) h' = G h' := by
  simp only [groupsEntry]
  refine foldl_invar (fun G2 : String → Option (List String) => G2 h' = G h') _ _
    (fun G2 a _ h2 => by
      show gAdd G2 a gm.1 h' = G h'
      rw [gAdd_other G2 a gm.1 h' h]
      exact h2) _ ?_
  split
  · exact gCreate_other G gm.1 h' h
  · rfl

theorem groupsEntry_sound (G : String → Option (List String))
    (gm : String × List String) :
    ((groupsEntry G gm) gm.1).isSome ∧
      ∀ m ∈ gm.2, m ∈ gMembers (groupsEntry G gm) gm.1 := by
  have hG1 : ((if gMembers G gm.1 = [] then gCreate G gm.1 else G) gm.1).isSome := by
    split
    · exact gCreate_creates G gm.1
    · rename_i hne
      unfold gMembers at hne
      cases hG : G gm.1
      · rw [hG] at hne
        simp at hne
      · simp
  constructor
  · unfold groupsEntry
    exact foldl_invar (fun G2 => (G2 gm.1).isSome) _ _
      (fun G2 m _ h2 => gAdd_isSome_pres G2 m gm.1 gm.1 h2) _ hG1
  · intro m hm
    by_cases hcur : m ∈ gMembers (if gMembers G gm.1 = [] then gCreate G gm.1 else G) gm.1
    · simp only [groupsEntry]
      exact foldl_invar (fun G2 => m ∈ gMembers G2 gm.1) _ _
        (fun G2 a _ h2 => gAdd_mem_pres G2 a gm.1 gm.1 m h2) _ hcur
    · simp only [groupsEntry]
      refine foldl_ensures (fun m G2 => m ∈ gMembers G2 gm.1)
        (fun G2 m => gAdd G2 m gm.1) _
        (fun G2 a _ => gAdd_self G2 a gm.1)
        (fun G2 a b _ h2 => gAdd_mem_pres G2 b gm.1 gm.1 a h2) _ m ?_
      rw [List.mem_filter]
      exact ⟨hm, by simpa using hcur⟩

theorem groupsEntry_id (G : String → Option (List String))
    (gm : String × List String) (hsome : (G gm.1).isSome)
    (hmem : ∀ m ∈ gm.2, m ∈ gMembers G gm.1) : groupsEntry G gm = G := by
  have hG1 : (if gMembers G gm.1 = [] then gCreate G gm.1 else G) = G := by
    split
    · exact gCreate_of_isSome G gm.1 hsome
    · rfl
  simp only [groupsEntry]
  rw [hG1]
  have hfilter : gm.2.filter (fun m => m ∉ gMembers G gm.1) = [] := by
    rw [List.filter_eq_nil_iff]
    intro a ha
    simpa using hmem a ha
  rw [hfilter]
  rfl

theorem groupsStep_isSome_pres (G : String → Option (List String))
    (l : List (String × List String)) (h' : String) (h : (G h').isSome) :
    ((groupsStep G l) h').isSome := by
  unfold groupsStep
  exact foldl_invar (fun G1 => (G1 h').isSome) _ l
    (fun G1 gm _ h1 => groupsEntry_isSome_pres G1 gm h' h1) G h

theorem groupsStep_mem_pres (G : String → Option (List String))
    (l : List (String × List String)) (h' m : String) (h : m ∈ gMembers G h') :
    m ∈ gMembers (groupsStep G l) h' := by
  unfold groupsStep
  exact foldl_invar (fun G1 => m ∈ gMembers G1 h') _ l
    (fun G1 gm _ h1 => groupsEntry_mem_pres G1 gm h' m h1) G h

theorem groupsStep_other (G : String → Option (List String))
    (l : List (String × List String)) (h' : String)
    (h : ∀ ms, (h', ms) ∉ l) : (groupsStep G l) h' = G h' := by
  unfold groupsStep
  refine foldl_invar (fun G1 => G1 h' = G h') _ l ?_ G rfl
  intro G1 gm hgm h1
  have hne : h' ≠ gm.1 := by
    intro he
    exact h gm.2 (by rw [he]; exact hgm)
  rw [groupsEntry_other G1 gm h' hne, h1]

theorem groupsStep_declared (G : String → Option (List String))
    (l : List (String × List String)) :
    ∀ gm ∈ l, ((groupsStep G l) gm.1).isSome ∧
      ∀ m ∈ gm.2, m ∈ gMembers (groupsStep G l) gm.1 := by
  intro gm hgm
  unfold groupsStep
  exact foldl_ensures
    (fun gm G1 => (G1 gm.1).isSome ∧ ∀ m ∈ gm.2, m ∈ gMembers G1 gm.1)
    groupsEntry l
    (fun G1 a _ => groupsEntry_sound G1 a)
    (fun G1 a b _ h1 =>
      ⟨groupsEntry_isSome_pres G1 b a.1 h1.1,
        fun m hm => groupsEntry_mem_pres G1 b a.1 m (h1.2 m hm)⟩) G gm hgm

theorem groupsStep_idem (G : String → Option (List String))
    (l : List (String × List String)) :
    groupsStep (groupsStep G l) l = groupsStep G l := by
  conv_lhs => unfold groupsStep
  refine foldl_id _ l _ ?_
  intro gm hgm
  obtain ⟨h1, h2⟩ := groupsStep_declared G l gm hgm
  exact groupsEntry_id _ gm h1 h2

/-! ## Users-field lemmas: characterization of the two user passes. -/

theorem uExists_congr (pend : String → Bool) (U V : String → Option UserRec)
    (u : String) (h : U u = V u) : uExists pend U u = uExists pend V u := by
  unfold uExists userDataU
  rw [h]

theorem uExists_pendingB (V W : String → Option UserRec) (u : String)
    (h : W u = V u) : uExists (pendingB V) W u = (V u).isSome := by
  unfold uExists userDataU pendingB
  rw [h]
  cases hv : V u with
  | none => simp
  | some r => cases hr : r.pending <;> simp [hr]

theorem usersStep1Iter_other (pend : String → Bool) (U : String → Option UserRec)
    (x : SnapUser) (v : String) (h : v ≠ x.username) :
    usersStep1Iter pend U x v = U v := by
  by_cases hex : uExists pend U x.username <;>
    simp [usersStep1Iter, hex, uSetAdmin, uApprove, uRegister, h]

theorem usersStep3Iter_other (pend : String → Bool) (U : String → Option UserRec)
    (x : String × String) (v : String) (h : v ≠ x.1) :
    usersStep3Iter pend U x v = U v := by
  by_cases hex : uExists pend U x.1 <;>
    simp [usersStep3Iter, hex, uRegister, h]

theorem lastAdminOf_cons_eq (x : SnapUser) (l : List SnapUser) (u : String) :
    lastAdminOf (x :: l) u =
      match lastAdminOf l u with
      | some b => some b
      | none => if x.username = u then some x.admin else none := rfl

theorem firstPwdOf_cons_eq (x : SnapUser) (l : List SnapUser) (u : String) :
    firstPwdOf (x :: l) u =
      if x.username = u then some x.password else firstPwdOf l u := rfl

theorem lastPwdOf_cons_eq (x : String × String) (l : List (String × String)) (u : String) :
    lastPwdOf (x :: l) u =
      match lastPwdOf l u with
      | some p => some p
      | none => if x.1 = u then some x.2 else none := rfl

theorem lastAdminOf_cons_ne (x : SnapUser) (l : List SnapUser) (u : String)
    (h : x.username ≠ u) : lastAdminOf (x :: l) u = lastAdminOf l u := by
  rw [lastAdminOf_cons_eq]
  cases lastAdminOf l u <;> simp [h]

theorem firstPwdOf_cons_ne (x : SnapUser) (l : List SnapUser) (u : String)
    (h : x.username ≠ u) : firstPwdOf (x :: l) u = firstPwdOf l u := by
  rw [firstPwdOf_cons_eq, if_neg h]

theorem lastPwdOf_cons_ne (x : String × String) (l : List (String × String)) (u : String)
    (h : x.1 ≠ u) : lastPwdOf (x :: l) u = lastPwdOf l u := by
  rw [lastPwdOf_cons_eq]
  cases lastPwdOf l u <;> simp [h]

theorem lastAdminOf_some_firstPwd (l : List SnapUser) (u : String) (b : Bool)
    (h : lastAdminOf l u = some b) : ∃ p, firstPwdOf l u = some p := by
  induction l with
  | nil => simp [lastAdminOf] at h
  | cons x l ih =>
    unfold firstPwdOf
    by_cases hx : x.username = u
    · exact ⟨x.password, by rw [if_pos hx]⟩
    · rw [if_neg hx]
      rw [lastAdminOf_cons_ne x l u hx] at h
      exact ih h

theorem map_admin_map_admin (o : Option UserRec) (a b : Bool) :
    (o.map (fun r => { r with admin := a })).map (fun r => { r with admin := b }) =
      o.map (fun r => { r with admin := b }) := by
  cases o with
  | none => rfl
  | some r => cases r; rfl

theorem map_admin_self (o : Option UserRec) (b : Bool)
    (h : ∀ r, o = some r → r.admin = b) :
    o.map (fun r => { r with admin := b }) = o := by
  cases o with
  | none => rfl
  | some r =>
    obtain ⟨pw, adm, pnd⟩ := r
    have hb : adm = b := h _ rfl
    subst hb
    rfl

/-- The declared-users pass at username `u`: nothing happens when `u` is
not declared; otherwise the admin flag of the last declaring entry is
written, over the existing record when `u` already existed (under the
stale pending set), or over a freshly registered-and-approved record
with the first declaring entry's password hash. -/
theorem usersStep1_char (pend : String → Bool) (l : List SnapUser) :
    ∀ (U : String → Option UserRec) (u : String),
      usersStep1 pend U l u =
        match lastAdminOf l u with
        | none => U u
        | some b =>
          if uExists pend U u then (U u).map (fun r => { r with admin := b })
          else (firstPwdOf l u).map (fun p => UserRec.mk p b false) := by
  induction l with
  | nil => intro U u; rfl
  | cons x l ih =>
    intro U u
    have hcons : usersStep1 pend U (x :: l) u =
        usersStep1 pend (usersStep1Iter pend U x) l u := rfl
    rw [hcons, ih (usersStep1Iter pend U x) u]
    by_cases hx : x.username = u
    · subst hx
      by_cases hex : uExists pend U x.username
      · have hU1 : usersStep1Iter pend U x x.username =
            (U x.username).map (fun r => { r with admin := x.admin }) := by
          simp [usersStep1Iter, hex, uSetAdmin]
        have hex1 : uExists pend (usersStep1Iter pend U x) x.username = true := by
          unfold uExists userDataU at hex ⊢
          rw [hU1]
          cases hU : U x.username with
          | none =>
            rw [hU] at hex
            simpa using hex
          | some r =>
            rw [hU] at hex
            cases hrp : r.pending <;> simp_all
        cases hLA : lastAdminOf l x.username with
        | none =>
          rw [lastAdminOf_cons_eq, hLA, hU1]
          simp [hex]
        | some b =>
          rw [lastAdminOf_cons_eq, hLA, hU1]
          simp only [hex, hex1, if_true]
          rw [map_admin_map_admin]
      · have hU1 : usersStep1Iter pend U x x.username =
            some ⟨x.password, x.admin, false⟩ := by
          simp [usersStep1Iter, hex, uSetAdmin, uApprove, uRegister]
        have hex1 : uExists pend (usersStep1Iter pend U x) x.username = true := by
          unfold uExists userDataU
          rw [hU1]
          simp
        cases hLA : lastAdminOf l x.username with
        | none =>
          rw [lastAdminOf_cons_eq, hLA, hU1, firstPwdOf_cons_eq]
          simp [hex]
        | some b =>
          rw [lastAdminOf_cons_eq, hLA, hU1, firstPwdOf_cons_eq]
          simp [hex, hex1]
    · have hU1 : usersStep1Iter pend U x u = U u :=
        usersStep1Iter_other pend U x u (fun he => hx he.symm)
      rw [lastAdminOf_cons_ne x l u hx, firstPwdOf_cons_ne x l u hx,
        uExists_congr pend (usersStep1Iter pend U x) U u hU1, hU1]

/-- The pending-users pass at username `u`: nothing happens when `u` is
not declared, or when `u` already exists under the stale pending set;
otherwise every declaring entry re-registers, leaving a Pending record
with the last declared hash. -/
theorem usersStep3_char (pend : String → Bool) (ps : List (String × String)) :
    ∀ (U : String → Option UserRec) (u : String),
      usersStep3 pend U ps u =
        match lastPwdOf ps u with
        | none => U u
        | some p => if uExists pend U u then U u else some ⟨p, false, true⟩ := by
  induction ps with
  | nil => intro U u; rfl
  | cons x ps ih =>
    intro U u
    have hcons : usersStep3 pend U (x :: ps) u =
        usersStep3 pend (usersStep3Iter pend U x) ps u := rfl
    rw [hcons, ih (usersStep3Iter pend U x) u]
    by_cases hx : x.1 = u
    · subst hx
      by_cases hex : uExists pend U x.1
      · have hU1 : usersStep3Iter pend U x x.1 = U x.1 := by
          simp [usersStep3Iter, hex]
        rw [uExists_congr pend (usersStep3Iter pend U x) U x.1 hU1, hU1,
          lastPwdOf_cons_eq]
        cases hLP : lastPwdOf ps x.1 <;> simp [hex]
      · have hpend : pend x.1 = false := by
          unfold uExists at hex
          rcases hp : pend x.1
          · rfl
          · rw [hp] at hex
            simp at hex
        have hU1 : usersStep3Iter pend U x x.1 = some ⟨x.2, false, true⟩ := by
          simp [usersStep3Iter, hex, uRegister]
        have hex1 : uExists pend (usersStep3Iter pend U x) x.1 = false := by
          unfold uExists userDataU
          rw [hU1]
          simp [hpend]
        cases hLP : lastPwdOf ps x.1 with
        | none =>
          rw [lastPwdOf_cons_eq, hLP, hU1]
          simp [hex]
        | some p =>
          rw [lastPwdOf_cons_eq, hLP]
          simp [hex, hex1]
    · have hU1 : usersStep3Iter pend U x u = U u :=
        usersStep3Iter_other pend U x u (fun he => hx he.symm)
      rw [lastPwdOf_cons_ne x ps u hx,
        uExists_congr pend (usersStep3Iter pend U x) U u hU1, hU1]

/-- After the declared-users pass (run with its own initial pending
set), every declared username exists, and its record carries the last
declared admin flag. -/
theorem step1_exists_after (U : String → Option UserRec) (l : List SnapUser)
    (u : String) (b : Bool) (hLA : lastAdminOf l u = some b) :
    uExists (pendingB U) (usersStep1 (pendingB U) U l) u = true ∧
    ∃ r, usersStep1 (pendingB U) U l u = some r ∧ r.admin = b := by
  have hc0 := usersStep1_char (pendingB U) l U u
  rw [hLA] at hc0
  have hc : usersStep1 (pendingB U) U l u =
      if uExists (pendingB U) U u then (U u).map (fun r => { r with admin := b })
      else (firstPwdOf l u).map (fun p => UserRec.mk p b false) := by
    rw [hc0]
  by_cases hex : uExists (pendingB U) U u
  · have hsome : (U u).isSome := by
      rw [← uExists_pendingB U U u rfl]
      exact hex
    obtain ⟨r0, hr0⟩ := Option.isSome_iff_exists.mp hsome
    obtain ⟨pw0, adm0, pnd0⟩ := r0
    rw [if_pos hex, hr0] at hc
    refine ⟨?_, ⟨pw0, b, pnd0⟩, hc, rfl⟩
    unfold uExists userDataU
    rw [hc]
    cases hrp : pnd0
    · simp [hrp]
    · have hpb : pendingB U u = true := by
        unfold pendingB
        rw [hr0, hrp]
    -- pending flag of the stored record
      simp [hpb, hrp]
  · obtain ⟨p0, hp0⟩ := lastAdminOf_some_firstPwd l u b hLA
    rw [if_neg hex, hp0] at hc
    refine ⟨?_, ⟨p0, b, false⟩, hc, rfl⟩
    unfold uExists userDataU
    rw [hc]
    simp

/-- Idempotence of the two user passes taken together, with the pending
set recomputed from the intermediate state for the second run. -/
theorem users_load_idem (U : String → Option UserRec) (l : List SnapUser)
    (ps : List (String × String)) :
    usersStep3 (pendingB (usersStep3 (pendingB U) (usersStep1 (pendingB U) U l) ps))
      (usersStep1 (pendingB (usersStep3 (pendingB U) (usersStep1 (pendingB U) U l) ps))
        (usersStep3 (pendingB U) (usersStep1 (pendingB U) U l) ps) l) ps =
    usersStep3 (pendingB U) (usersStep1 (pendingB U) U l) ps := by
  set pend : String → Bool := pendingB U with hpendd
  set U1 : String → Option UserRec := usersStep1 pend U l with hU1d
  set Uf : String → Option UserRec := usersStep3 pend U1 ps with hUfd
  set pend2 : String → Bool := pendingB Uf with hpend2d
  set U1' : String → Option UserRec := usersStep1 pend2 Uf l with hU1'd
  funext u
  have c1 : U1 u = match lastAdminOf l u with
      | none => U u
      | some b => if uExists pend U u then (U u).map (fun r => { r with admin := b })
          else (firstPwdOf l u).map (fun p => UserRec.mk p b false) :=
    usersStep1_char pend l U u
  have cf : Uf u = match lastPwdOf ps u with
      | none => U1 u
      | some p => if uExists pend U1 u then U1 u else some ⟨p, false, true⟩ :=
    usersStep3_char pend ps U1 u
  have c1' : U1' u = match lastAdminOf l u with
      | none => Uf u
      | some b => if uExists pend2 Uf u then (Uf u).map (fun r => { r with admin := b })
          else (firstPwdOf l u).map (fun p => UserRec.mk p b false) :=
    usersStep1_char pend2 l Uf u
  have c3' : usersStep3 pend2 U1' ps u = match lastPwdOf ps u with
      | none => U1' u
      | some p => if uExists pend2 U1' u then U1' u else some ⟨p, false, true⟩ :=
    usersStep3_char pend2 ps U1' u
  rw [c3']
  cases hLA : lastAdminOf l u with
  | none =>
    have hU1u : U1 u = U u := by rw [c1, hLA]
    have hU1'u : U1' u = Uf u := by rw [c1', hLA]
    cases hLP : lastPwdOf ps u with
    | none => exact hU1'u
    | some p =>
      show (if uExists pend2 U1' u then U1' u else some ⟨p, false, true⟩) = Uf u
      have hUfu : Uf u = if uExists pend U1 u then U1 u else some ⟨p, false, true⟩ := by
        rw [cf, hLP]
      have hexU1 : uExists pend U1 u = (U u).isSome := by
        rw [hpendd]
        exact uExists_pendingB U U1 u (by rw [hU1u])
      by_cases hs : (U u).isSome
      · have hUf2 : Uf u = U u := by
          rw [hUfu, hexU1, if_pos hs, hU1u]
        have hex2 : uExists pend2 U1' u = true := by
          rw [hpend2d, uExists_pendingB Uf U1' u hU1'u, hUf2]
          exact hs
        rw [if_pos hex2]
        exact hU1'u
      · have hUf2 : Uf u = some ⟨p, false, true⟩ := by
          rw [hUfu, hexU1, if_neg hs]
        have hex2 : uExists pend2 U1' u = true := by
          rw [hpend2d, uExists_pendingB Uf U1' u hU1'u, hUf2]
          rfl
        rw [if_pos hex2]
        exact hU1'u
  | some b =>
    have hstep := step1_exists_after U l u b hLA
    rw [← hpendd, ← hU1d] at hstep
    obtain ⟨hex1, r1, hr1, hadm1⟩ := hstep
    have hUfu : Uf u = U1 u := by
      rw [cf]
      cases hLP : lastPwdOf ps u with
      | none => rfl
      | some p =>
        show (if uExists pend U1 u then U1 u else some ⟨p, false, true⟩) = U1 u
        rw [if_pos hex1]
    have hUf_some : Uf u = some r1 := by rw [hUfu, hr1]
    have hex2' : uExists pend2 Uf u = true := by
      rw [hpend2d, uExists_pendingB Uf Uf u rfl, hUf_some]
      rfl
    have hU1'u : U1' u = Uf u := by
      rw [c1', hLA]
      show (if uExists pend2 Uf u then (Uf u).map (fun r => { r with admin := b })
        else (firstPwdOf l u).map (fun p => UserRec.mk p b false)) = Uf u
      rw [if_pos hex2', hUf_some]
      exact map_admin_self (some r1) b
        (fun r hr => (Option.some.inj hr) ▸ hadm1)
    cases hLP : lastPwdOf ps u with
    | none => exact hU1'u
    | some p =>
      show (if uExists pend2 U1' u then U1' u else some ⟨p, false, true⟩) = Uf u
      have hex2'' : uExists pend2 U1' u = true := by
        rw [hpend2d, uExists_pendingB Uf U1' u hU1'u, hUf_some]
        rfl
      rw [if_pos hex2'']
      exact hU1'u

/-- C5: `load` is purely additive.  Every user-permission and
group-permission grant present before the load is still present after
it; every member of an existing group is still a member afterwards (the
group still exists); and a group that is not declared in the snapshot is
left completely unchanged — in particular a declared group is only ever
created when absent, never recreated over an existing one. -/
theorem c5_load_additive (s : Store) (d : Snapshot) :
    (∀ package u p, p ∈ s.userPerms package u → p ∈ (load s d).userPerms package u) ∧
    (∀ package g p, p ∈ s.groupPerms package g → p ∈ (load s d).groupPerms package g) ∧
    (∀ g ms, s.groups g = some ms →
      ∃ ms', (load s d).groups g = some ms' ∧ ∀ m ∈ ms, m ∈ ms') ∧
    (∀ g, (∀ ms, (g, ms) ∉ d.groups) → (load s d).groups g = s.groups g) := by
  rw [load_eq]
  refine ⟨?_, ?_, ?_, ?_⟩
  · intro package u p hp
    exact permsStep_mono d.packageUsers s.userPerms package u p hp
  · intro package g p hp
    exact permsStep_mono d.packageGroups s.groupPerms package g p hp
  · intro g ms hms
    have hsome : ((groupsStep s.groups d.groups) g).isSome :=
      groupsStep_isSome_pres s.groups d.groups g (by rw [hms]; rfl)
    obtain ⟨ms', hms'⟩ := Option.isSome_iff_exists.mp hsome
    refine ⟨ms', hms', ?_⟩
    intro m hm
    have hmem := groupsStep_mem_pres s.groups d.groups g m
      (by unfold gMembers; rw [hms]; exact hm)
    unfold gMembers at hmem
    rw [hms'] at hmem
    exact hmem
  · intro g hnot
    exact groupsStep_other s.groups d.groups g hnot

/-- C5 witness — Scenario D: loading a snapshot declaring only group
`dev` (member `bob`) into a store holding group `qa` with member `carol`
leaves `qa` and its membership exactly unchanged. -/
theorem c5_witness :
    (load stScenD snapScenD).groups "qa" = stScenD.groups "qa" ∧
    (∃ ms', (load stScenD snapScenD).groups "qa" = some ms' ∧
      ∀ m ∈ (["carol"] : List String), m ∈ ms') := by
  have h := c5_load_additive stScenD snapScenD
  refine ⟨h.2.2.2 "qa" ?_, h.2.2.1 "qa" ["carol"] (by decide)⟩
  intro ms hm
  simp [snapScenD] at hm

/-- C6: `load` is idempotent — applying the same snapshot twice in
succession, from any starting store, produces exactly the same final
store state as applying it once. -/
theorem c6_load_idempotent (s : Store) (d : Snapshot) :
    load (load s d) d = load s d := by
  rw [load_eq s d, load_eq]
  simp only [Store.mk.injEq]
  exact ⟨users_load_idem s.users d.users d.pending_users,
    groupsStep_idem s.groups d.groups,
    permsStep_idem s.userPerms d.packageUsers,
    permsStep_idem s.groupPerms d.packageGroups, trivial⟩

end Pypicloud
